import Mathlib

/-!
Verification of the cassette record/replay engine and request filters
(vendored vcr library: `vcr/cassette.py`, `vcr/filters.py`).

The cassette is embedded shallowly: the Python object becomes a Lean
structure, mutation becomes explicit state passing, raised exceptions
become `Except`, and Python truthiness of the request filter's result
becomes `Option` (with `none` standing for a falsy return value).
The configured match predicate (`requests_match` with the configured
`match_on` matchers) and the request/response filter hooks are
configuration values of the cassette, so they are fields of the
structure, exactly as in the source constructor.
-/

set_option autoImplicit false

namespace VCR

/-- The error raised by `play_response` / `responses_of`: it carries the
cassette's storage path and the offending request
(`UnhandledHTTPRequestError` in the source). -/
structure UnhandledHTTPRequestError (Req : Type) where
  path : String
  request : Req
deriving DecidableEq

/-- The cassette state: configuration fields from `Cassette.__init__`
(`_path`, `record_mode`, `_match_on`, `_before_record_request`,
`_before_record_response`, `inject`) and the mutable fields
(`data`, `play_counts`, `dirty`, `rewound`).  `play_counts` is a
`Counter`, i.e. a total map from indices to counts defaulting to 0. -/
structure Cassette (Req Resp : Type) where
  path : String
  record_mode : String
  match_on : Req → Req → Bool
  before_record_request : Req → Option Req
  before_record_response : Resp → Resp
  inject : Bool
  data : List (Req × Resp)
  play_counts : Nat → Nat
  dirty : Bool
  rewound : Bool

/-- `Cassette.__init__`: fresh cassette with empty data, zero play
counts, clear dirty flag and clear rewound flag. -/
def Cassette.mkNew {Req Resp : Type} (path record_mode : String)
    (match_on : Req → Req → Bool) (before_record_request : Req → Option Req)
    (before_record_response : Resp → Resp) (inject : Bool) : Cassette Req Resp :=
  { path := path
    record_mode := record_mode
    match_on := match_on
    before_record_request := before_record_request
    before_record_response := before_record_response
    inject := inject
    data := []
    play_counts := fun _ => 0
    dirty := false
    rewound := false }

/-- The enumerate-and-filter loop of `Cassette._responses`: walks the
stored (request, response) pairs carrying the running index `n`, and
yields `(index, response)` for every stored request the filtered
request matches. -/
def matchList {Req Resp : Type} (match_on : Req → Req → Bool) (fr : Req) :
    List (Req × Resp) → Nat → List (Nat × Resp)
  | [], _ => []
  | (sr, resp) :: rest, n =>
    if match_on fr sr then (n, resp) :: matchList match_on fr rest (n + 1)
    else matchList match_on fr rest (n + 1)

/-- `Cassette._responses`: applies `_before_record_request` to the
request, then yields all `(index, response)` pairs whose stored request
matches.  A falsy filtered request (`none`) matches nothing: the source
hands the falsy value to `requests_match` (whose module is not part of
this repository's sources), where no stored request matches it. -/
def Cassette._responses {Req Resp : Type} (c : Cassette Req Resp) (request : Req) :
    List (Nat × Resp) :=
  match c.before_record_request request with
  | none => []
  | some fr => matchList c.match_on fr c.data 0

/-- `Cassette.play_response`: first `(index, response)` from
`_responses` whose play count is 0 is returned and that count is
incremented; otherwise `UnhandledHTTPRequestError` is raised carrying
the cassette path and the original request. -/
def Cassette.play_response {Req Resp : Type} (c : Cassette Req Resp) (request : Req) :
    Except (UnhandledHTTPRequestError Req) (Resp × Cassette Req Resp) :=
  match (c._responses request).find? (fun p => c.play_counts p.1 == 0) with
  | some p =>
    Except.ok (p.2,
      { c with play_counts := fun j => if j = p.1 then c.play_counts j + 1 else c.play_counts j })
  | none => Except.error { path := c.path, request := request }

/-- `Cassette.responses_of`: all matching responses regardless of play
state; raises the same error kind when none match. -/
def Cassette.responses_of {Req Resp : Type} (c : Cassette Req Resp) (request : Req) :
    Except (UnhandledHTTPRequestError Req) (List Resp) :=
  let responses := (c._responses request).map (fun p => p.2)
  if responses.isEmpty then Except.error { path := c.path, request := request }
  else Except.ok responses

/-- `Cassette.__contains__`: some matching stored exchange still has
play count 0.  Note that `_responses` applies the request filter to its
argument again. -/
def Cassette.containsReq {Req Resp : Type} (c : Cassette Req Resp) (request : Req) : Bool :=
  (c._responses request).any (fun p => c.play_counts p.1 == 0)

/-- `Cassette.can_play_response_for`: the filtered request is truthy,
is contained in the cassette (which filters it a second time), the
record mode is not "all", and the cassette is rewound. -/
def Cassette.can_play_response_for {Req Resp : Type} (c : Cassette Req Resp) (request : Req) :
    Bool :=
  match c.before_record_request request with
  | none => false
  | some fr => c.containsReq fr && !(c.record_mode == "all") && c.rewound

/-- `Cassette.append`: filters the request; a falsy result drops the
pair silently, otherwise the response filter is applied, the filtered
pair is appended and the dirty flag set. -/
def Cassette.append {Req Resp : Type} (c : Cassette Req Resp) (request : Req) (response : Resp) :
    Cassette Req Resp :=
  match c.before_record_request request with
  | none => c
  | some fr =>
    { c with data := c.data ++ [(fr, c.before_record_response response)], dirty := true }

/-- `Cassette.write_protected`: `self.rewound and self.record_mode == 'once'
or self.record_mode == 'none'`. -/
def Cassette.write_protected {Req Resp : Type} (c : Cassette Req Resp) : Bool :=
  (c.rewound && c.record_mode == "once") || c.record_mode == "none"

/-- `Cassette._save`: persists when forced or dirty and clears the
dirty flag; the in-memory exchange data and play counts are untouched. -/
def Cassette._save {Req Resp : Type} (c : Cassette Req Resp) (force : Bool) :
    Cassette Req Resp :=
  if force || c.dirty then { c with dirty := false } else c

/-- `Cassette._load`: the outcome of `load_cassette` (the persistence
module is not part of this repository's sources) is passed in as an
`Except`, with `Except.error` standing for the `IOError` the source
catches.  On success the zipped pairs are appended through `append`,
then the dirty flag is cleared and the rewound flag set; on `IOError`
the cassette is left exactly as constructed. -/
def Cassette._load {Req Resp : Type} (c : Cassette Req Resp)
    (storage : Except Unit (List Req × List Resp)) : Cassette Req Resp :=
  match storage with
  | Except.error _ => c
  | Except.ok (requests, responses) =>
    let c' := (requests.zip responses).foldl (fun acc p => acc.append p.1 p.2) c
    { c' with dirty := false, rewound := true }

/-- `Cassette.load`: construct a fresh cassette and populate it from
storage. -/
def Cassette.load {Req Resp : Type} (path record_mode : String)
    (match_on : Req → Req → Bool) (before_record_request : Req → Option Req)
    (before_record_response : Resp → Resp) (inject : Bool)
    (storage : Except Unit (List Req × List Resp)) : Cassette Req Resp :=
  (Cassette.mkNew path record_mode match_on before_record_request
    before_record_response inject)._load storage

/-- One cassette operation, for stating trace invariants.  The
state-reading operations (`responses_of`, `can_play_response_for`, the
membership test) keep the state; `play_response` keeps the state when
it raises. -/
inductive CasOp (Req Resp : Type) where
  | append (request : Req) (response : Resp)
  | playResponse (request : Req)
  | responsesOf (request : Req)
  | canPlayResponseFor (request : Req)
  | containsReq (request : Req)
  | save (force : Bool)
  | load (storage : Except Unit (List Req × List Resp))

/-- The state transition of one cassette operation. -/
def applyOp {Req Resp : Type} (c : Cassette Req Resp) : CasOp Req Resp → Cassette Req Resp
  | CasOp.append r resp => c.append r resp
  | CasOp.playResponse r =>
    match c.play_response r with
    | Except.ok p => p.2
    | Except.error _ => c
  | CasOp.responsesOf _ => c
  | CasOp.canPlayResponseFor _ => c
  | CasOp.containsReq _ => c
  | CasOp.save force => c._save force
  | CasOp.load storage => c._load storage

/-- Run a sequence of cassette operations from a starting state. -/
def runOps {Req Resp : Type} (c : Cassette Req Resp) (ops : List (CasOp Req Resp)) :
    Cassette Req Resp :=
  ops.foldl applyOp c

/-!
### Requests and the three filters (`vcr/filters.py`)

The vcr `Request` class itself is not among this repository's sources,
only `filters.py` which manipulates it.  Modelled from the spec: a
request has a method, a URI, headers (an ordered key-value mapping) and
a body.  The URI is kept in its `urlparse` six-component form; its
query component is kept as the parsed parameter list (the spec's
"rebuilds the URI's query string excluding named parameters"), so
`request.query` reads that component and the rebuild writes it back.
A body is either a byte stream (`BytesIO`, which the post-data filter
skips) or plain bytes, modelled as a list of characters.
-/

/-- Modelled from the spec: the six-component parsed URI
(`urlparse` tuple), with the query component held in parsed form. -/
structure Uri where
  scheme : String
  netloc : String
  upath : String
  uparams : String
  query : List (String × String)
  fragment : String
deriving DecidableEq

/-- Modelled from the spec: a request body, either a byte stream
(`BytesIO`) or raw bytes. -/
inductive Body where
  | stream : Body
  | bytes : List Char → Body
deriving DecidableEq

/-- Modelled from the spec: a vcr request with method, URI, headers and
body.  Headers are an ordered key-value mapping with case-preserved
keys (a Python dict). -/
structure Request where
  method : String
  uri : Uri
  headers : List (String × String)
  body : Body
deriving DecidableEq

/-- `request.query`: the parsed query parameters of the request's URI. -/
def Request.query (request : Request) : List (String × String) :=
  request.uri.query

/-- Modelled from the spec: Python's `str.lower()` on header names,
which the spec only requires to fold ASCII case. -/
def asciiLower (s : String) : String := String.mk (s.data.map Char.toLower)

/-- `remove_headers`: lowercases the removal list, collects the header
keys whose lowercase form is in it, and pops exactly those keys (a
no-op when none match). -/
def remove_headers (request : Request) (headers_to_remove : List String) : Request :=
  let lowered := headers_to_remove.map asciiLower
  let keys := request.headers.filter (fun kv => lowered.contains (asciiLower kv.1))
  if keys.isEmpty then request
  else { request with
          headers := request.headers.filter (fun kv => !(lowered.contains (asciiLower kv.1))) }

/-- `remove_query_parameters`: filters the parsed query, and rewrites
the URI's query component only when the filtered list is shorter. -/
def remove_query_parameters (request : Request) (query_parameters_to_remove : List String) :
    Request :=
  let query := request.query
  let new_query := query.filter (fun kv => !(query_parameters_to_remove.contains kv.1))
  if new_query.length ≠ query.length then
    { request with uri := { request.uri with query := new_query } }
  else request

/-!
### Byte-level helpers for the post-data filter

`remove_post_data_parameters` works on raw bytes with `bytes.split`,
`bytes.partition` and `b'&'.join` / `b'='.join`; these are modelled
here on `List Char` with Python's semantics (`split` keeps empty
pieces, `b''.split(sep)` is `[b'']`; `partition` splits at the first
separator and returns the whole string with an empty tail when the
separator is absent).
-/

/-- Python `bytes.split(sep)` for a one-byte separator. -/
def splitOnByte (sep : Char) : List Char → List (List Char)
  | [] => [[]]
  | c :: rest =>
    match splitOnByte sep rest with
    | [] => [[]]
    | piece :: pieces =>
      if c = sep then [] :: piece :: pieces else (c :: piece) :: pieces

/-- Python `sep.join(pieces)` for a one-byte separator. -/
def joinByte (sep : Char) : List (List Char) → List Char
  | [] => []
  | [piece] => piece
  | piece :: pieces => piece ++ sep :: joinByte sep pieces

/-- Python `bytes.partition(sep)` restricted to the head and tail
components: splits at the first separator; when the separator is
absent the head is the whole string and the tail is empty (as is the
tail when the separator is last). -/
def partitionByte (sep : Char) : List Char → List Char × List Char
  | [] => ([], [])
  | c :: rest =>
    if c = sep then ([], rest)
    else
      let p := partitionByte sep rest
      (c :: p.1, p.2)

/-- Split at the first separator, failing when the separator is
absent (used by the modelled JSON object reader). -/
def splitOnceByte (sep : Char) : List Char → Option (List Char × List Char)
  | [] => none
  | c :: rest =>
    if c = sep then some ([], rest)
    else (splitOnceByte sep rest).map (fun p => (c :: p.1, p.2))

/-- The `OrderedDict` of the form-data branch: insertion-ordered keys,
each mapped to its list of values. -/
abbrev FormDict := List (List Char × List (List Char))

/-- Key membership in the ordered dict. -/
def formHasKey (od : FormDict) (k : List Char) : Bool :=
  od.any (fun e => e.1 == k)

/-- `post_data[k].append(v)`: appends a value to an existing key's
value list. -/
def formAppendVal : FormDict → List Char → List Char → FormDict
  | [], _, _ => []
  | e :: rest, k, v =>
    if e.1 = k then (e.1, e.2 ++ [v]) :: rest
    else e :: formAppendVal rest k v

/-- One iteration of the form-data loop: partition the piece at the
first `=`; append when the key is already present, insert when the key
is non-empty and not in the removal list, drop otherwise. -/
def formStep (names : List String) (od : FormDict) (piece : List Char) : FormDict :=
  let p := partitionByte '=' piece
  if formHasKey od p.1 then formAppendVal od p.1 p.2
  else if p.1 ≠ [] ∧ ¬ names.contains (String.mk p.1) then od ++ [(p.1, [p.2])]
  else od

/-- The ordered dict built from a form-encoded body by the source's
loop over `request.body.split(b'&')`. -/
def formCollect (names : List String) (b : List Char) : FormDict :=
  (splitOnByte '&' b).foldl (formStep names) []

/-- The `(key, value)` pairs of the ordered dict in iteration order
(`for k, vals in post_data.items() for v in vals`). -/
def formPairs (od : FormDict) : List (List Char × List Char) :=
  od.flatMap (fun e => e.2.map (fun v => (e.1, v)))

/-- `b'&'.join(b'='.join([k, v]) ...)`: the rebuilt form body. -/
def formRebuild (od : FormDict) : List Char :=
  joinByte '&' ((formPairs od).map (fun kv => kv.1 ++ '=' :: kv.2))

/-- The full form-data branch body rewrite. -/
def formBody (names : List String) (b : List Char) : List Char :=
  formRebuild (formCollect names b)

/-- Modelled from the spec: reading a JSON object body as its ordered
top-level `(key, value)` pairs (`json.loads`; the `json` module is not
part of this repository's sources).  Fails (`none`) on anything that
is not an object, as the source raises there. -/
def jsonLoads (b : List Char) : Option (List (List Char × List Char)) :=
  if b = [] then some []
  else (splitOnByte ',' b).mapM (splitOnceByte ':')

/-- Modelled from the spec: re-serializing the stripped JSON object
(`json.dumps`). -/
def jsonDumps (obj : List (List Char × List Char)) : List Char :=
  joinByte ',' (obj.map (fun kv => kv.1 ++ ':' :: kv.2))

/-- `remove_post_data_parameters`: only POST requests with a
non-stream body are touched.  With a `Content-Type: application/json`
header the body is parsed as a JSON object, the named top-level keys
are deleted and the object re-serialized (`none` models the exception
the source raises on a non-object body); otherwise the body is treated
as form data, preserving key order and multi-valued keys and keeping
only keys that are non-empty and not named. -/
def remove_post_data_parameters (request : Request)
    (post_data_parameters_to_remove : List String) : Option Request :=
  if request.method = "POST" then
    match request.body with
    | Body.stream => some request
    | Body.bytes b =>
      if request.headers.lookup "Content-Type" = some "application/json" then
        match jsonLoads b with
        | none => none
        | some obj =>
          some { request with
                  body := Body.bytes (jsonDumps (obj.filter
                    (fun kv => !(post_data_parameters_to_remove.contains (String.mk kv.1))))) }
      else
        some { request with body := Body.bytes (formBody post_data_parameters_to_remove b) }
  else some request

/-!
### Wellformedness of the form dict, and concrete instances

`WFentry`/`WFdict` state the invariant the form-data loop maintains:
every key is non-empty, not in the removal list, free of `&` and `=`,
has a non-empty value list whose values are free of `&`, and the keys
are pairwise distinct.  The concrete cassettes and requests below
instantiate the theorems.
-/

/-- Invariant of a single ordered-dict entry built by the form loop. -/
def WFentry (names : List String) (e : List Char × List (List Char)) : Prop :=
  e.1 ≠ [] ∧ names.contains (String.mk e.1) = false ∧ '&' ∉ e.1 ∧ '=' ∉ e.1 ∧
  e.2 ≠ [] ∧ ∀ v ∈ e.2, '&' ∉ v

/-- Invariant of the whole ordered dict built by the form loop. -/
def WFdict (names : List String) (od : FormDict) : Prop :=
  (∀ e ∈ od, WFentry names e) ∧ (od.map Prod.fst).Nodup

/-- A rewound single-exchange cassette over `Nat` requests/responses. -/
def wCas : Cassette Nat Nat :=
  { path := "cassette.yaml"
    record_mode := "once"
    match_on := fun a b => a == b
    before_record_request := fun r => some r
    before_record_response := fun s => s
    inject := false
    data := [(5, 77)]
    play_counts := fun _ => 0
    dirty := false
    rewound := true }

/-- The state `wCas.play_response 5` steps to. -/
def wOut : Cassette Nat Nat :=
  { wCas with
    play_counts := fun j => if j = 0 then wCas.play_counts j + 1 else wCas.play_counts j }

/-- A cassette whose record mode is "none" and which is not rewound. -/
def cexC2 : Cassette Nat Nat :=
  { path := "p"
    record_mode := "none"
    match_on := fun _ _ => false
    before_record_request := fun r => some r
    before_record_response := fun s => s
    inject := false
    data := []
    play_counts := fun _ => 0
    dirty := false
    rewound := false }

/-- A rewound cassette whose request filter is not idempotent: it maps
`n` to `n + 1`, and stores an exchange for the once-filtered request. -/
def cexC3 : Cassette Nat Nat :=
  { path := "p"
    record_mode := "once"
    match_on := fun a b => a == b
    before_record_request := fun r => some (r + 1)
    before_record_response := fun s => s
    inject := false
    data := [(2, 9)]
    play_counts := fun _ => 0
    dirty := false
    rewound := true }

/-- A cassette whose request filter suppresses request `0` and keeps
every other request. -/
def wC5 : Cassette Nat Nat :=
  { path := "p"
    record_mode := "once"
    match_on := fun a b => a == b
    before_record_request := fun r => if r = 0 then none else some r
    before_record_response := fun s => s + 1
    inject := false
    data := []
    play_counts := fun _ => 0
    dirty := false
    rewound := false }

/-- A concrete operation sequence replaying the same request twice. -/
def wOps : List (CasOp Nat Nat) :=
  [CasOp.playResponse 5, CasOp.playResponse 5, CasOp.append 9 1, CasOp.save true]

/-- A concrete URI. -/
def wUri : Uri :=
  { scheme := "http"
    netloc := "example.com"
    upath := "/api"
    uparams := ""
    query := [("q", "1")]
    fragment := "" }

/-- A POST request with a form body and an Authorization header. -/
def wReq7 : Request :=
  { method := "POST"
    uri := wUri
    headers := [("Authorization", "tok")]
    body := Body.bytes ("b=2&a=1".toList) }

/-- `wReq7` after removing the post-data parameter "a". -/
def wReq7out : Request :=
  { wReq7 with body := Body.bytes ("b=2".toList) }

/-- A GET request with a single query parameter "a". -/
def wReq8 : Request :=
  { method := "GET"
    uri := { wUri with query := [("a", "1")] }
    headers := []
    body := Body.bytes [] }

/-- A request with an upper-case AUTHORIZATION header. -/
def wReq9 : Request :=
  { method := "GET"
    uri := wUri
    headers := [("Accept", "json"), ("AUTHORIZATION", "tok")]
    body := Body.bytes [] }

/-- A POST request with form body `=x&a=1` (an empty-keyed parameter
followed by `a=1`) and no JSON content type. -/
def exReq10 : Request :=
  { method := "POST"
    uri := wUri
    headers := [("Accept", "json")]
    body := Body.bytes ("=x&a=1".toList) }

/-!
## Characterizing the `_responses` scan
-/

theorem matchList_cons_pos {Req Resp : Type} {m : Req → Req → Bool} {fr sr : Req} {r0 : Resp}
    {tl : List (Req × Resp)} {n : Nat} (hm : m fr sr = true) :
    matchList m fr ((sr, r0) :: tl) n = (n, r0) :: matchList m fr tl (n + 1) := by
  simp [matchList, hm]

theorem matchList_cons_neg {Req Resp : Type} {m : Req → Req → Bool} {fr sr : Req} {r0 : Resp}
    {tl : List (Req × Resp)} {n : Nat} (hm : m fr sr = false) :
    matchList m fr ((sr, r0) :: tl) n = matchList m fr tl (n + 1) := by
  simp [matchList, hm]

theorem any_matchList_iff {Req Resp : Type} (m : Req → Req → Bool) (fr : Req)
    (p : Nat × Resp → Bool) (l : List (Req × Resp)) (n : Nat) :
    (matchList m fr l n).any p = true ↔
      ∃ j pr, l.get? j = some pr ∧ m fr pr.1 = true ∧ p (n + j, pr.2) = true := by
  induction l generalizing n with
  | nil => simp [matchList]
  | cons hd tl ih =>
    obtain ⟨sr, r0⟩ := hd
    cases hm : m fr sr with
    | true =>
      rw [matchList_cons_pos hm, List.any_cons]
      simp only [Bool.or_eq_true, ih]
      constructor
      · rintro (hp | ⟨j, pr, hget, hmm, hp⟩)
        · exact ⟨0, (sr, r0), rfl, hm, by simpa using hp⟩
        · refine ⟨j + 1, pr, hget, hmm, ?_⟩
          rw [show n + (j + 1) = (n + 1) + j from by omega]
          exact hp
      · rintro ⟨j, pr, hget, hmm, hp⟩
        match j with
        | 0 =>
          left
          simp only [List.get?_cons_zero, Option.some.injEq] at hget
          subst hget
          simpa using hp
        | j' + 1 =>
          right
          refine ⟨j', pr, hget, hmm, ?_⟩
          rw [show (n + 1) + j' = n + (j' + 1) from by omega]
          exact hp
    | false =>
      rw [matchList_cons_neg hm, ih]
      constructor
      · rintro ⟨j, pr, hget, hmm, hp⟩
        refine ⟨j + 1, pr, hget, hmm, ?_⟩
        rw [show n + (j + 1) = (n + 1) + j from by omega]
        exact hp
      · rintro ⟨j, pr, hget, hmm, hp⟩
        match j with
        | 0 =>
          simp only [List.get?_cons_zero, Option.some.injEq] at hget
          subst hget
          exact absurd hmm (by simp [hm])
        | j' + 1 =>
          refine ⟨j', pr, hget, hmm, ?_⟩
          rw [show (n + 1) + j' = n + (j' + 1) from by omega]
          exact hp

theorem find?_matchList_some {Req Resp : Type} (m : Req → Req → Bool) (fr : Req)
    (p : Nat × Resp → Bool) (l : List (Req × Resp)) (n i : Nat) (resp : Resp)
    (h : (matchList m fr l n).find? p = some (i, resp)) :
    ∃ j pr, l.get? j = some pr ∧ i = n + j ∧ m fr pr.1 = true ∧ resp = pr.2 ∧
      p (i, resp) = true ∧
      ∀ j' pr', j' < j → l.get? j' = some pr' → m fr pr'.1 = true →
        p (n + j', pr'.2) = false := by
  induction l generalizing n with
  | nil => simp [matchList] at h
  | cons hd tl ih =>
    obtain ⟨sr, r0⟩ := hd
    cases hm : m fr sr with
    | true =>
      rw [matchList_cons_pos hm] at h
      cases hp : p (n, r0) with
      | true =>
        rw [List.find?_cons_of_pos _ hp] at h
        simp only [Option.some.injEq, Prod.mk.injEq] at h
        obtain ⟨hi, hr⟩ := h
        subst hi; subst hr
        exact ⟨0, (sr, r0), rfl, by omega, hm, rfl, hp,
          fun j' pr' hj' _ _ => absurd hj' (by omega)⟩
      | false =>
        rw [List.find?_cons_of_neg _ (by simp [hp])] at h
        obtain ⟨j, pr, hget, hi, hmm, hr, hpi, hmin⟩ := ih (n + 1) h
        refine ⟨j + 1, pr, hget, by omega, hmm, hr, hpi, ?_⟩
        intro j' pr' hj' hget' hm'
        match j' with
        | 0 =>
          simp only [List.get?_cons_zero, Option.some.injEq] at hget'
          subst hget'
          simpa using hp
        | j'' + 1 =>
          have h' := hmin j'' pr' (by omega) hget' hm'
          rw [show n + (j'' + 1) = (n + 1) + j'' from by omega]
          exact h'
    | false =>
      rw [matchList_cons_neg hm] at h
      obtain ⟨j, pr, hget, hi, hmm, hr, hpi, hmin⟩ := ih (n + 1) h
      refine ⟨j + 1, pr, hget, by omega, hmm, hr, hpi, ?_⟩
      intro j' pr' hj' hget' hm'
      match j' with
      | 0 =>
        simp only [List.get?_cons_zero, Option.some.injEq] at hget'
        subst hget'
        exact absurd hm' (by simp [hm])
      | j'' + 1 =>
        have h' := hmin j'' pr' (by omega) hget' hm'
        rw [show n + (j'' + 1) = (n + 1) + j'' from by omega]
        exact h'

theorem find?_matchList_none {Req Resp : Type} (m : Req → Req → Bool) (fr : Req)
    (p : Nat × Resp → Bool) (l : List (Req × Resp)) (n : Nat)
    (h : (matchList m fr l n).find? p = none) :
    ∀ j pr, l.get? j = some pr → m fr pr.1 = true → p (n + j, pr.2) = false := by
  induction l generalizing n with
  | nil => intro j pr hget; simp at hget
  | cons hd tl ih =>
    obtain ⟨sr, r0⟩ := hd
    intro j pr hget hm'
    cases hm : m fr sr with
    | true =>
      rw [matchList_cons_pos hm] at h
      cases hp : p (n, r0) with
      | true =>
        rw [List.find?_cons_of_pos _ hp] at h
        exact absurd h (by simp)
      | false =>
        rw [List.find?_cons_of_neg _ (by simp [hp])] at h
        match j with
        | 0 =>
          simp only [List.get?_cons_zero, Option.some.injEq] at hget
          subst hget
          simpa using hp
        | j'' + 1 =>
          have h' := ih (n + 1) h j'' pr hget hm'
          rw [show n + (j'' + 1) = (n + 1) + j'' from by omega]
          exact h'
    | false =>
      rw [matchList_cons_neg hm] at h
      match j with
      | 0 =>
        simp only [List.get?_cons_zero, Option.some.injEq] at hget
        subst hget
        exact absurd hm' (by simp [hm])
      | j'' + 1 =>
        have h' := ih (n + 1) h j'' pr hget hm'
        rw [show n + (j'' + 1) = (n + 1) + j'' from by omega]
        exact h'

/-!
## Claim theorems: cassette operations
-/

/-- Claim C1: `play_response` scans the stored exchanges in insertion
order and returns the response at the first index whose stored request
matches the filtered request under the configured match predicate and
whose play counter is zero, incrementing exactly that counter; if no
such unconsumed match exists it fails with the unhandled-request error
carrying the request and the cassette's path, leaving the cassette
state (in particular every play counter) unchanged. -/
theorem C1_play_response_spec {Req Resp : Type} (c : Cassette Req Resp) (request : Req) :
    match c.play_response request with
    | Except.ok (resp, c') =>
      ∃ fr i pr, c.before_record_request request = some fr ∧
        c.data.get? i = some pr ∧ c.match_on fr pr.1 = true ∧ c.play_counts i = 0 ∧
        (∀ j pr', j < i → c.data.get? j = some pr' → c.match_on fr pr'.1 = true →
          c.play_counts j ≠ 0) ∧
        resp = pr.2 ∧
        c'.play_counts i = c.play_counts i + 1 ∧
        (∀ j, j ≠ i → c'.play_counts j = c.play_counts j) ∧
        c'.data = c.data ∧ c'.dirty = c.dirty ∧ c'.rewound = c.rewound
    | Except.error e =>
      e.path = c.path ∧ e.request = request ∧
      applyOp c (CasOp.playResponse request) = c ∧
      ∀ fr i pr, c.before_record_request request = some fr → c.data.get? i = some pr →
        c.match_on fr pr.1 = true → c.play_counts i ≠ 0 := by
  unfold Cassette.play_response Cassette._responses
  cases hbr : c.before_record_request request with
  | none =>
    refine ⟨rfl, rfl, ?_, ?_⟩
    · simp [applyOp, Cassette.play_response, Cassette._responses, hbr]
    · intro fr i pr hfr
      simp at hfr
  | some fr =>
    cases hf : (matchList c.match_on fr c.data 0).find? (fun p => c.play_counts p.1 == 0) with
    | some q =>
      obtain ⟨j, pr, hget, hi, hmm, hr, hpi, hmin⟩ :=
        find?_matchList_some c.match_on fr _ c.data 0 q.1 q.2 hf
      simp only [Nat.zero_add] at hi
      subst hi
      simp only [beq_iff_eq] at hpi
      refine ⟨fr, q.1, pr, rfl, hget, hmm, hpi, ?_, hr, ?_, ?_, rfl, rfl, rfl⟩
      · intro j' pr' hlt hget' hm' hc0
        have h' := hmin j' pr' hlt hget' hm'
        simp only [Nat.zero_add, beq_iff_eq] at h'
        exact absurd hc0 (by simpa using h')
      · simp
      · intro k hk
        simp [hk]
    | none =>
      refine ⟨rfl, rfl, ?_, ?_⟩
      · simp [applyOp, Cassette.play_response, Cassette._responses, hbr, hf]
      · intro fr' i pr hfr hget hm' hc0
        injection hfr with hfr'
        subst hfr'
        have h' := find?_matchList_none c.match_on fr _ c.data 0 hf i pr hget hm'
        simp only [Nat.zero_add, beq_iff_eq] at h'
        exact absurd hc0 (by simpa using h')

/-- Witness for C1: on the concrete cassette `wCas`, playing request 5
succeeds and bumps the play counter of index 0 from 0 to 1. -/
theorem C1_play_response_spec_witness :
    wCas.play_response 5 = Except.ok (77, wOut) ∧
    wOut.play_counts 0 = wCas.play_counts 0 + 1 := by
  have h := C1_play_response_spec wCas 5
  rw [show wCas.play_response 5 = Except.ok (77, wOut) from rfl] at h
  obtain ⟨fr, i, pr, hbr, hget, hmm, hz, hmin, hresp, hbump, hother, hdata, hdirty, hrew⟩ := h
  match i, hget with
  | 0, _ => exact ⟨rfl, hbump⟩
  | j + 1, hget => simp [wCas] at hget

/-- Claim C2 counterexample: a cassette with record mode "none" that is
not rewound is write-protected, but the claim's formula — (rewound AND
mode "once") OR mode "never" — evaluates to false on it. -/
theorem C2_counterexample :
    cexC2.write_protected = true ∧
    ((cexC2.rewound && cexC2.record_mode == "once") || cexC2.record_mode == "never")
      = false := by
  constructor <;> decide

/-- Claim C2 (amended): `write_protected` is true exactly when (the
cassette is rewound and its record mode is "once") or its record mode
is "none". -/
theorem C2_write_protected_spec {Req Resp : Type} (c : Cassette Req Resp) :
    c.write_protected = true ↔
      (c.rewound = true ∧ c.record_mode = "once") ∨ c.record_mode = "none" := by
  simp [Cassette.write_protected, Bool.or_eq_true, Bool.and_eq_true, beq_iff_eq]

/-- Witness for C2: the concrete cassette `cexC2` (mode "none") is
write-protected. -/
theorem C2_write_protected_spec_witness : cexC2.write_protected = true :=
  (C2_write_protected_spec cexC2).mpr (Or.inr rfl)

/-- Claim C3 counterexample: on `cexC3` the once-filtered request 1
(namely 2) matches the stored exchange at index 0, whose play counter
is zero, the record mode is not "all" and the cassette is rewound —
yet `can_play_response_for` returns false, because the membership test
filters the request a second time. -/
theorem C3_counterexample :
    cexC3.can_play_response_for 1 = false ∧
    cexC3.before_record_request 1 = some 2 ∧
    cexC3.data = [(2, 9)] ∧ cexC3.match_on 2 2 = true ∧
    cexC3.play_counts 0 = 0 ∧ cexC3.record_mode ≠ "all" ∧ cexC3.rewound = true := by
  refine ⟨rfl, rfl, rfl, rfl, rfl, ?_, rfl⟩
  decide

/-- Claim C3 (amended): `can_play_response_for` is true iff the request
filter yields a truthy request whose own filtered value (the filter is
applied a second time by the membership test) matches some stored
exchange with play counter zero, the record mode is not "all", and the
cassette is rewound; in particular it is false whenever the record mode
is "all". -/
theorem C3_can_play_spec {Req Resp : Type} (c : Cassette Req Resp) (request : Req) :
    c.can_play_response_for request = true ↔
      ∃ fr, c.before_record_request request = some fr ∧
        (∃ fr2, c.before_record_request fr = some fr2 ∧
          ∃ i pr, c.data.get? i = some pr ∧ c.match_on fr2 pr.1 = true ∧
            c.play_counts i = 0) ∧
        c.record_mode ≠ "all" ∧ c.rewound = true := by
  unfold Cassette.can_play_response_for Cassette.containsReq Cassette._responses
  cases hbr : c.before_record_request request with
  | none => simp
  | some fr =>
    cases hbr2 : c.before_record_request fr with
    | none => simp [hbr2]
    | some fr2 =>
      simp only [hbr2, Option.some.injEq, exists_eq_left', Bool.and_eq_true,
        Bool.not_eq_true', beq_eq_false_iff_ne, ne_eq, any_matchList_iff,
        Nat.zero_add, beq_iff_eq]
      tauto

/-- Witness for C3: on `wCas`, whose request filter is the identity,
`can_play_response_for 5` is true. -/
theorem C3_can_play_spec_witness : wCas.can_play_response_for 5 = true :=
  (C3_can_play_spec wCas 5).mpr
    ⟨5, rfl, ⟨5, rfl, 0, (5, 77), rfl, rfl, rfl⟩, by decide, rfl⟩

/-- Claim C5: `append` applies the request filter; a falsy result
drops the pair silently leaving the cassette unchanged; otherwise the
response filter is applied, the filtered pair is appended at the end
of the exchange list, and the dirty flag is set. -/
theorem C5_append_spec {Req Resp : Type} (c : Cassette Req Resp) (request : Req)
    (response : Resp) :
    (c.before_record_request request = none → c.append request response = c) ∧
    ∀ fr, c.before_record_request request = some fr →
      (c.append request response).data =
        c.data ++ [(fr, c.before_record_response response)] ∧
      (c.append request response).dirty = true := by
  unfold Cassette.append
  cases hbr : c.before_record_request request with
  | none => exact ⟨fun _ => rfl, fun fr h => by simp at h⟩
  | some fr0 =>
    refine ⟨fun h => by simp at h, fun fr h => ?_⟩
    injection h with h
    subst h
    exact ⟨rfl, rfl⟩

/-- Witness for C5: `wC5`'s filter suppresses request 0, so appending
it is a no-op; appending request 1 marks the cassette dirty. -/
theorem C5_append_spec_witness :
    wC5.append 0 3 = wC5 ∧ (wC5.append 1 3).dirty = true :=
  ⟨(C5_append_spec wC5 0 3).1 rfl, ((C5_append_spec wC5 1 3).2 1 rfl).2⟩

/-- Claim C6: loading a cassette whose persisted storage is absent
(the storage read fails with a file-system error) does not raise and
yields a cassette with an empty exchange list, zero play counts, and a
clear dirty flag. -/
theorem C6_load_missing_storage {Req Resp : Type} (path record_mode : String)
    (match_on : Req → Req → Bool) (before_record_request : Req → Option Req)
    (before_record_response : Resp → Resp) (inject : Bool) :
    (Cassette.load path record_mode match_on before_record_request before_record_response
        inject (Except.error ()) : Cassette Req Resp).data = [] ∧
    (∀ i, (Cassette.load path record_mode match_on before_record_request
        before_record_response inject (Except.error ()) : Cassette Req Resp).play_counts i
        = 0) ∧
    (Cassette.load path record_mode match_on before_record_request before_record_response
        inject (Except.error ()) : Cassette Req Resp).dirty = false :=
  ⟨rfl, fun _ => rfl, rfl⟩

/-!
## The play-counter invariant (C4)
-/

theorem append_play_counts {Req Resp : Type} (c : Cassette Req Resp) (r : Req) (s : Resp) :
    (c.append r s).play_counts = c.play_counts := by
  unfold Cassette.append
  cases c.before_record_request r <;> rfl

theorem load_play_counts {Req Resp : Type} (c : Cassette Req Resp)
    (st : Except Unit (List Req × List Resp)) :
    (c._load st).play_counts = c.play_counts := by
  unfold Cassette._load
  cases st with
  | error e => rfl
  | ok p =>
    obtain ⟨reqs, resps⟩ := p
    show ((reqs.zip resps).foldl (fun acc q => acc.append q.1 q.2) c).play_counts = _
    generalize reqs.zip resps = l
    induction l generalizing c with
    | nil => rfl
    | cons hd tl ih => rw [List.foldl_cons, ih, append_play_counts]

theorem applyOp_play_counts {Req Resp : Type} (c : Cassette Req Resp) (op : CasOp Req Resp)
    (i : Nat) :
    (applyOp c op).play_counts i = c.play_counts i ∨
      (c.play_counts i = 0 ∧ (applyOp c op).play_counts i = 1) := by
  cases op with
  | append r s => exact Or.inl (congrFun (append_play_counts c r s) i)
  | playResponse r =>
    simp only [applyOp]
    unfold Cassette.play_response
    cases hf : (c._responses r).find? (fun p => c.play_counts p.1 == 0) with
    | none => exact Or.inl rfl
    | some q =>
      have hq := List.find?_some hf
      simp only [beq_iff_eq] at hq
      by_cases hi : i = q.1
      · subst hi
        right
        exact ⟨hq, by simp [hq]⟩
      · left
        simp [hi]
  | responsesOf r => exact Or.inl rfl
  | canPlayResponseFor r => exact Or.inl rfl
  | containsReq r => exact Or.inl rfl
  | save force =>
    simp only [applyOp]
    unfold Cassette._save
    split <;> exact Or.inl rfl
  | load st => exact Or.inl (congrFun (load_play_counts c st) i)

/-- Claim C4: across every sequence of cassette operations the play
counter of each index is monotonically non-decreasing, and starting
from counters bounded by one (in particular from the zero counters of
a fresh cassette) no operation ever raises a play counter above one. -/
theorem C4_play_counts_invariant {Req Resp : Type} (ops : List (CasOp Req Resp))
    (c : Cassette Req Resp) (i : Nat) :
    c.play_counts i ≤ (runOps c ops).play_counts i ∧
    ((∀ j, c.play_counts j ≤ 1) → (runOps c ops).play_counts i ≤ 1) := by
  induction ops generalizing c with
  | nil => exact ⟨Nat.le_refl _, fun h => h i⟩
  | cons op ops ih =>
    have hstep : ∀ k, c.play_counts k ≤ (applyOp c op).play_counts k ∧
        (c.play_counts k ≤ 1 → (applyOp c op).play_counts k ≤ 1) := by
      intro k
      rcases applyOp_play_counts c op k with h | ⟨h0, h1⟩
      · rw [h]
        exact ⟨Nat.le_refl _, fun hh => hh⟩
      · rw [h1, h0]
        exact ⟨Nat.zero_le _, fun _ => Nat.le_refl _⟩
    have hrun : runOps c (op :: ops) = runOps (applyOp c op) ops := rfl
    rw [hrun]
    obtain ⟨ihmono, ihbound⟩ := ih (applyOp c op)
    exact ⟨Nat.le_trans (hstep i).1 ihmono, fun hb => ihbound (fun j => (hstep j).2 (hb j))⟩

/-- Witness for C4: running the concrete operation sequence `wOps`
(which replays request 5 twice) on `wCas` leaves the play counter of
index 0 at most one. -/
theorem C4_play_counts_invariant_witness :
    (runOps wCas wOps).play_counts 0 ≤ 1 :=
  (C4_play_counts_invariant wOps wCas 0).2 (fun _ => Nat.zero_le 1)

/-!
## Claim theorems: the filters
-/

theorem lowered_contains_false_iff (names : List String) (k : String) :
    ((names.map asciiLower).contains (asciiLower k) = false) ↔
      ∀ n ∈ names, asciiLower k ≠ asciiLower n := by
  rw [← Bool.not_eq_true]
  simp only [List.contains_eq_any_beq, List.any_eq_true, List.mem_map, beq_iff_eq, not_exists,
    not_and, ne_eq]
  constructor
  · intro h n hn heq
    exact h (asciiLower n) ⟨n, hn, rfl⟩ heq
  · rintro h x ⟨n, hn, rfl⟩ heq
    exact h n hn heq

theorem remove_headers_headers (request : Request) (names : List String) :
    (remove_headers request names).headers =
      request.headers.filter
        (fun kv => !((names.map asciiLower).contains (asciiLower kv.1))) := by
  simp only [remove_headers]
  split
  · next hke =>
    have hnone : ∀ kv ∈ request.headers,
        ¬((names.map asciiLower).contains (asciiLower kv.1) = true) := by
      rw [List.isEmpty_iff, List.filter_eq_nil_iff] at hke
      exact hke
    exact (List.filter_eq_self.mpr (fun kv hkv => by simpa using hnone kv hkv)).symm
  · rfl

/-- Claim C9: `remove_headers` removes every header whose key equals a
listed name up to ASCII case, keeps every other header (and the other
request fields) untouched, never raises (it is a total function), and
is a no-op on the request when no key matches any listed name. -/
theorem C9_remove_headers_spec (request : Request) (names : List String) :
    (∀ kv, kv ∈ (remove_headers request names).headers ↔
      (kv ∈ request.headers ∧ ∀ n ∈ names, asciiLower kv.1 ≠ asciiLower n)) ∧
    (remove_headers request names).method = request.method ∧
    (remove_headers request names).uri = request.uri ∧
    (remove_headers request names).body = request.body ∧
    ((∀ kv ∈ request.headers, ∀ n ∈ names, asciiLower kv.1 ≠ asciiLower n) →
      remove_headers request names = request) := by
  refine ⟨?_, ?_, ?_, ?_, ?_⟩
  · intro kv
    rw [remove_headers_headers, List.mem_filter]
    have hiff := lowered_contains_false_iff names kv.1
    constructor
    · rintro ⟨hmem, hpred⟩
      refine ⟨hmem, hiff.mp ?_⟩
      simpa using hpred
    · rintro ⟨hmem, hne⟩
      refine ⟨hmem, ?_⟩
      simpa using hiff.mpr hne
  · simp only [remove_headers]
    split <;> rfl
  · simp only [remove_headers]
    split <;> rfl
  · simp only [remove_headers]
    split <;> rfl
  · intro h
    simp only [remove_headers]
    rw [if_pos]
    rw [List.isEmpty_iff, List.filter_eq_nil_iff]
    intro kv hkv
    simp only [Bool.not_eq_true]
    exact (lowered_contains_false_iff names kv.1).mpr (h kv hkv)

/-- Witness for C9: removing "Authorization" from `wReq9` removes the
upper-case AUTHORIZATION header and keeps the Accept header; and with
no matching key the request is untouched. -/
theorem C9_remove_headers_spec_witness :
    ((("Accept", "json") : String × String) ∈ (remove_headers wReq9 ["Authorization"]).headers
      ↔ ((("Accept", "json") : String × String) ∈ wReq9.headers ∧
          ∀ n ∈ ["Authorization"], asciiLower "Accept" ≠ asciiLower n)) ∧
    remove_headers wReq9 ["X-Token"] = wReq9 :=
  ⟨(C9_remove_headers_spec wReq9 ["Authorization"]).1 ("Accept", "json"),
   (C9_remove_headers_spec wReq9 ["X-Token"]).2.2.2.2 (by decide)⟩

/-- Claim C8: when the URI's query contains no parameter named in the
removal list, `remove_query_parameters` leaves the request identical
to the input: the length guard fails and the URI is not rewritten. -/
theorem C8_remove_query_parameters_noop (request : Request) (names : List String)
    (h : ∀ kv ∈ request.query, kv.1 ∉ names) :
    remove_query_parameters request names = request := by
  have hfilter : request.query.filter (fun kv => !(names.contains kv.1)) = request.query :=
    List.filter_eq_self.mpr (fun kv hkv => by simpa using h kv hkv)
  simp only [remove_query_parameters, Request.query] at hfilter ⊢
  rw [hfilter]
  simp

/-- Witness for C8: removing the absent parameter "b" from `wReq8`
returns it byte-identically. -/
theorem C8_remove_query_parameters_noop_witness :
    remove_query_parameters wReq8 ["b"] = wReq8 :=
  C8_remove_query_parameters_noop wReq8 ["b"] (by decide)

/-!
## Byte-level split/join/partition lemmas
-/

theorem splitOnByte_cons_eq (sep c : Char) (rest p : List Char) (ps : List (List Char))
    (hps : splitOnByte sep rest = p :: ps) :
    splitOnByte sep (c :: rest) =
      if c = sep then [] :: p :: ps else (c :: p) :: ps := by
  simp only [splitOnByte]
  rw [hps]

theorem splitOnByte_ne_nil (sep : Char) (l : List Char) : splitOnByte sep l ≠ [] := by
  induction l with
  | nil => simp [splitOnByte]
  | cons c rest ih =>
    obtain ⟨p, ps, hps⟩ := List.exists_cons_of_ne_nil ih
    rw [splitOnByte_cons_eq sep c rest p ps hps]
    split <;> simp

theorem mem_splitOnByte_not_mem (sep : Char) (l : List Char) :
    ∀ piece ∈ splitOnByte sep l, sep ∉ piece := by
  induction l with
  | nil =>
    intro piece h
    simp [splitOnByte] at h
    subst h
    simp
  | cons c rest ih =>
    intro piece h
    obtain ⟨p, ps, hps⟩ := List.exists_cons_of_ne_nil (splitOnByte_ne_nil sep rest)
    rw [splitOnByte_cons_eq sep c rest p ps hps] at h
    have hp : p ∈ splitOnByte sep rest := by
      rw [hps]; exact List.mem_cons_self _ _
    have htail : ∀ r ∈ ps, sep ∉ r := fun r hr =>
      ih r (by rw [hps]; exact List.mem_cons_of_mem _ hr)
    by_cases hc : c = sep
    · rw [if_pos hc] at h
      rcases List.mem_cons.mp h with rfl | h2
      · simp
      · rcases List.mem_cons.mp h2 with rfl | h3
        · exact ih piece hp
        · exact htail piece h3
    · rw [if_neg hc] at h
      rcases List.mem_cons.mp h with rfl | h2
      · intro hmem
        rcases List.mem_cons.mp hmem with heq | hmem2
        · exact hc heq.symm
        · exact ih p hp hmem2
      · exact htail piece h2

theorem joinByte_cons_ne_nil (sep : Char) (p : List Char) (ps : List (List Char))
    (hp : p ≠ []) : joinByte sep (p :: ps) ≠ [] := by
  cases ps with
  | nil => simpa [joinByte] using hp
  | cons q qs => simp [joinByte]

theorem splitOnByte_single (sep : Char) (p : List Char) (hp : sep ∉ p) :
    splitOnByte sep p = [p] := by
  induction p with
  | nil => simp [splitOnByte]
  | cons c rest ih =>
    have hc : ¬ c = sep := fun h => hp (by simp [h])
    have hrest : sep ∉ rest := fun h => hp (List.mem_cons_of_mem _ h)
    rw [splitOnByte_cons_eq sep c rest rest [] (ih hrest), if_neg hc]

theorem splitOnByte_append_cons (sep : Char) (p t : List Char) (hp : sep ∉ p) :
    splitOnByte sep (p ++ sep :: t) = p :: splitOnByte sep t := by
  induction p with
  | nil =>
    show splitOnByte sep (sep :: t) = [] :: splitOnByte sep t
    obtain ⟨q, qs, hqs⟩ := List.exists_cons_of_ne_nil (splitOnByte_ne_nil sep t)
    rw [splitOnByte_cons_eq sep sep t q qs hqs, if_pos rfl, hqs]
  | cons c rest ih =>
    have hc : ¬ c = sep := fun h => hp (by simp [h])
    have hrest : sep ∉ rest := fun h => hp (List.mem_cons_of_mem _ h)
    show splitOnByte sep (c :: (rest ++ sep :: t)) = (c :: rest) :: splitOnByte sep t
    rw [splitOnByte_cons_eq sep c (rest ++ sep :: t) rest (splitOnByte sep t) (ih hrest),
      if_neg hc]

theorem splitOnByte_joinByte (sep : Char) (ps : List (List Char)) (hne : ps ≠ [])
    (hfree : ∀ p ∈ ps, sep ∉ p) :
    splitOnByte sep (joinByte sep ps) = ps := by
  induction ps with
  | nil => exact absurd rfl hne
  | cons p ps ih =>
    cases ps with
    | nil => simpa [joinByte] using splitOnByte_single sep p (hfree p (by simp))
    | cons q qs =>
      rw [show joinByte sep (p :: q :: qs) = p ++ sep :: joinByte sep (q :: qs) from rfl]
      rw [splitOnByte_append_cons sep _ _ (hfree p (by simp))]
      rw [ih (by simp) (fun r hr => hfree r (List.mem_cons_of_mem _ hr))]

theorem partitionByte_cons (sep c : Char) (rest : List Char) :
    partitionByte sep (c :: rest) =
      if c = sep then ([], rest)
      else (c :: (partitionByte sep rest).1, (partitionByte sep rest).2) := rfl

theorem partitionByte_append (sep : Char) (k v : List Char) (hk : sep ∉ k) :
    partitionByte sep (k ++ sep :: v) = (k, v) := by
  induction k with
  | nil =>
    show partitionByte sep (sep :: v) = ([], v)
    rw [partitionByte_cons, if_pos rfl]
  | cons c rest ih =>
    have hc : ¬ c = sep := fun h => hk (by simp [h])
    have hrest : sep ∉ rest := fun h => hk (List.mem_cons_of_mem _ h)
    show partitionByte sep (c :: (rest ++ sep :: v)) = (c :: rest, v)
    rw [partitionByte_cons, if_neg hc, ih hrest]

theorem partitionByte_fst_not_mem (sep : Char) (l : List Char) :
    sep ∉ (partitionByte sep l).1 := by
  induction l with
  | nil => simp [partitionByte]
  | cons c rest ih =>
    rw [partitionByte_cons]
    by_cases hc : c = sep
    · rw [if_pos hc]
      simp
    · rw [if_neg hc]
      intro hmem
      rcases List.mem_cons.mp hmem with heq | hmem2
      · exact hc heq.symm
      · exact ih hmem2

theorem partitionByte_not_mem (sep x : Char) (l : List Char) (hx : x ∉ l) :
    x ∉ (partitionByte sep l).1 ∧ x ∉ (partitionByte sep l).2 := by
  induction l with
  | nil => simp [partitionByte]
  | cons c rest ih =>
    have hxr : x ∉ rest := fun h => hx (List.mem_cons_of_mem _ h)
    have hxc : ¬ x = c := fun h => hx (by simp [h])
    obtain ⟨ih1, ih2⟩ := ih hxr
    rw [partitionByte_cons]
    by_cases hc : c = sep
    · rw [if_pos hc]
      exact ⟨by simp, hxr⟩
    · rw [if_neg hc]
      refine ⟨?_, ih2⟩
      intro hmem
      rcases List.mem_cons.mp hmem with heq | hmem2
      · exact hxc heq
      · exact ih1 hmem2

theorem splitOnceByte_cons (sep c : Char) (rest : List Char) :
    splitOnceByte sep (c :: rest) =
      if c = sep then some ([], rest)
      else (splitOnceByte sep rest).map (fun p => (c :: p.1, p.2)) := rfl

theorem splitOnceByte_eq (sep : Char) (l : List Char) (k v : List Char)
    (h : splitOnceByte sep l = some (k, v)) : l = k ++ sep :: v ∧ sep ∉ k := by
  induction l generalizing k v with
  | nil => simp [splitOnceByte] at h
  | cons c rest ih =>
    rw [splitOnceByte_cons] at h
    by_cases hc : c = sep
    · rw [if_pos hc] at h
      simp only [Option.some.injEq, Prod.mk.injEq] at h
      obtain ⟨hk, hv⟩ := h
      subst hk
      subst hv
      rw [hc]
      exact ⟨rfl, by simp⟩
    · rw [if_neg hc] at h
      obtain ⟨⟨k', v'⟩, hkv, heq⟩ := Option.map_eq_some'.mp h
      simp only [Prod.mk.injEq] at heq
      obtain ⟨hk, hv⟩ := heq
      obtain ⟨hl, hfree⟩ := ih k' v' hkv
      subst hk
      subst hv
      subst hl
      refine ⟨rfl, ?_⟩
      intro hmem
      rcases List.mem_cons.mp hmem with heq2 | hmem2
      · exact hc heq2.symm
      · exact hfree hmem2

theorem splitOnceByte_append (sep : Char) (k v : List Char) (hk : sep ∉ k) :
    splitOnceByte sep (k ++ sep :: v) = some (k, v) := by
  induction k with
  | nil =>
    show splitOnceByte sep (sep :: v) = some ([], v)
    rw [splitOnceByte_cons, if_pos rfl]
  | cons c rest ih =>
    have hc : ¬ c = sep := fun h => hk (by simp [h])
    have hrest : sep ∉ rest := fun h => hk (List.mem_cons_of_mem _ h)
    show splitOnceByte sep (c :: (rest ++ sep :: v)) = some (c :: rest, v)
    rw [splitOnceByte_cons, if_neg hc, ih hrest]
    rfl

/-!
## The ordered dict of the form-data branch
-/

theorem formHasKey_eq_false_iff (od : FormDict) (k : List Char) :
    formHasKey od k = false ↔ ∀ e ∈ od, e.1 ≠ k := by
  simp [formHasKey, List.any_eq_false]

theorem formAppendVal_keys (od : FormDict) (k v : List Char) :
    (formAppendVal od k v).map Prod.fst = od.map Prod.fst := by
  induction od with
  | nil => rfl
  | cons e rest ih =>
    simp only [formAppendVal]
    split
    · rfl
    · simp only [List.map_cons, ih]

theorem formAppendVal_entry (od : FormDict) (k v : List Char) :
    ∀ e' ∈ formAppendVal od k v,
      ∃ e ∈ od, e'.1 = e.1 ∧ (e'.2 = e.2 ∨ e'.2 = e.2 ++ [v]) := by
  induction od with
  | nil => simp [formAppendVal]
  | cons e rest ih =>
    intro e' h
    simp only [formAppendVal] at h
    split at h
    · rcases List.mem_cons.mp h with rfl | h2
      · exact ⟨e, List.mem_cons_self _ _, rfl, Or.inr rfl⟩
      · exact ⟨e', List.mem_cons_of_mem _ h2, rfl, Or.inl rfl⟩
    · rcases List.mem_cons.mp h with rfl | h2
      · exact ⟨e', List.mem_cons_self _ _, rfl, Or.inl rfl⟩
      · obtain ⟨e0, he0, h1, h2'⟩ := ih e' h2
        exact ⟨e0, List.mem_cons_of_mem _ he0, h1, h2'⟩

theorem formAppendVal_append_eq (acc1 : FormDict) (k : List Char) (vs0 : List (List Char))
    (acc2 : FormDict) (v : List Char) (hk : ∀ e ∈ acc1, e.1 ≠ k) :
    formAppendVal (acc1 ++ (k, vs0) :: acc2) k v = acc1 ++ (k, vs0 ++ [v]) :: acc2 := by
  induction acc1 with
  | nil => simp [formAppendVal]
  | cons e rest ih =>
    have he : ¬ e.1 = k := hk e (List.mem_cons_self _ _)
    show formAppendVal (e :: (rest ++ (k, vs0) :: acc2)) k v =
      e :: (rest ++ (k, vs0 ++ [v]) :: acc2)
    simp only [formAppendVal]
    rw [if_neg he, ih (fun e' h' => hk e' (List.mem_cons_of_mem _ h'))]

theorem formHasKey_append_mid (acc1 : FormDict) (k : List Char) (vs0 : List (List Char))
    (acc2 : FormDict) : formHasKey (acc1 ++ (k, vs0) :: acc2) k = true := by
  simp only [formHasKey, List.any_eq_true]
  exact ⟨(k, vs0), by simp, by simp⟩

theorem formStep_pair (names : List String) (od : FormDict) (k v : List Char)
    (hk : '=' ∉ k) :
    formStep names od (k ++ '=' :: v) =
      if formHasKey od k then formAppendVal od k v
      else if k ≠ [] ∧ ¬ names.contains (String.mk k) then od ++ [(k, [v])]
      else od := by
  simp only [formStep]
  rw [partitionByte_append '=' k v hk]

theorem formFold_group (names : List String) (k : List Char) (vs : List (List Char))
    (acc1 : FormDict) (vs0 : List (List Char)) (acc2 : FormDict)
    (hk1 : ∀ e ∈ acc1, e.1 ≠ k) (hkeq : '=' ∉ k) :
    (vs.map (fun v => k ++ '=' :: v)).foldl (formStep names) (acc1 ++ (k, vs0) :: acc2) =
      acc1 ++ (k, vs0 ++ vs) :: acc2 := by
  induction vs generalizing vs0 with
  | nil => simp
  | cons v vs ih =>
    rw [List.map_cons, List.foldl_cons, formStep_pair names _ k v hkeq,
      if_pos (formHasKey_append_mid acc1 k vs0 acc2),
      formAppendVal_append_eq acc1 k vs0 acc2 v hk1, ih (vs0 ++ [v])]
    simp

theorem formFold_replay (names : List String) (od : FormDict) (acc : FormDict)
    (hents : ∀ e ∈ od, WFentry names e)
    (hnodup : (od.map Prod.fst).Nodup)
    (hdisj : ∀ e ∈ od, ∀ e' ∈ acc, e'.1 ≠ e.1) :
    ((formPairs od).map (fun kv => kv.1 ++ '=' :: kv.2)).foldl (formStep names) acc =
      acc ++ od := by
  induction od generalizing acc with
  | nil => simp [formPairs]
  | cons e rest ih =>
    obtain ⟨k, vs⟩ := e
    obtain ⟨hk0, hkn, hkamp, hkeq, hvs, hvamp⟩ := hents (k, vs) (List.mem_cons_self _ _)
    have hk0' : k ≠ [] := hk0
    have hkn' : names.contains (String.mk k) = false := hkn
    have hkeq' : ('=' : Char) ∉ k := hkeq
    obtain ⟨v0, vs', hvs'⟩ := List.exists_cons_of_ne_nil hvs
    subst hvs'
    rw [show formPairs ((k, v0 :: vs') :: rest) =
        ((k, v0) :: vs'.map (fun v => (k, v))) ++ formPairs rest from by
      simp [formPairs]]
    rw [List.map_append, List.foldl_append]
    rw [show List.map (fun (kv : List Char × List Char) => kv.1 ++ '=' :: kv.2)
        ((k, v0) :: List.map (fun v => (k, v)) vs')
        = (k ++ '=' :: v0) :: List.map (fun v => k ++ '=' :: v) vs' from by
      simp [List.map_map, Function.comp]]
    rw [List.foldl_cons]
    rw [formStep_pair names acc k v0 hkeq']
    have hnotin : formHasKey acc k = false := by
      rw [formHasKey_eq_false_iff]
      intro e' he'
      exact hdisj (k, v0 :: vs') (List.mem_cons_self _ _) e' he'
    rw [if_neg (by simp [hnotin]), if_pos ⟨hk0', by rw [hkn']; simp⟩]
    rw [formFold_group names k vs' acc [v0] []
      (fun e' he' => hdisj (k, v0 :: vs') (List.mem_cons_self _ _) e' he') hkeq']
    have hnodup2 : (k :: List.map Prod.fst rest).Nodup := hnodup
    have hnodup' := List.nodup_cons.mp hnodup2
    rw [show acc ++ (k, [v0] ++ vs') :: [] = acc ++ [(k, v0 :: vs')] from rfl]
    rw [ih (acc ++ [(k, v0 :: vs')])
      (fun e' he' => hents e' (List.mem_cons_of_mem _ he'))
      hnodup'.2 ?hdisj']
    · simp
    case hdisj' =>
      intro e2 he2 e' he'
      rcases List.mem_append.mp he' with hin | hin
      · exact hdisj e2 (List.mem_cons_of_mem _ he2) e' hin
      · rcases List.mem_cons.mp hin with rfl | hcontra
        · intro heq
          refine hnodup'.1 ?_
          have : k = e2.1 := heq
          rw [this]
          exact List.mem_map_of_mem Prod.fst he2
        · simp at hcontra

theorem formStep_wf (names : List String) (od : FormDict) (piece : List Char)
    (hwf : WFdict names od) (hpfree : '&' ∉ piece) :
    WFdict names (formStep names od piece) := by
  obtain ⟨hents, hnodup⟩ := hwf
  obtain ⟨hp1, hp2⟩ := partitionByte_not_mem '=' '&' piece hpfree
  have hpeq := partitionByte_fst_not_mem '=' piece
  simp only [formStep]
  by_cases hhk : formHasKey od (partitionByte '=' piece).1 = true
  case pos =>
    rw [if_pos hhk]
    constructor
    · intro e' he'
      obtain ⟨e, he, h1, h2⟩ := formAppendVal_entry od _ _ e' he'
      obtain ⟨g1, g2, g3, g4, g5, g6⟩ := hents e he
      refine ⟨h1 ▸ g1, h1 ▸ g2, h1 ▸ g3, h1 ▸ g4, ?_, ?_⟩
      · rcases h2 with h2 | h2 <;> simp [h2, g5]
      · rcases h2 with h2 | h2
        · rw [h2]; exact g6
        · rw [h2]
          intro v hv
          rcases List.mem_append.mp hv with hv | hv
          · exact g6 v hv
          · simp at hv
            subst hv
            exact hp2
    · rw [formAppendVal_keys]
      exact hnodup
  case neg =>
    have hhk' : formHasKey od (partitionByte '=' piece).1 = false := by
      simpa using hhk
    rw [if_neg hhk]
    split
    · next hcond =>
      constructor
      · intro e' he'
        rcases List.mem_append.mp he' with hin | hin
        · exact hents e' hin
        · simp only [List.mem_singleton] at hin
          subst hin
          refine ⟨hcond.1, ?_, hp1, hpeq, by simp, ?_⟩
          · cases hcn : names.contains (String.mk (partitionByte '=' piece).1) with
            | false => rfl
            | true => exact absurd hcn hcond.2
          · intro v hv
            simp at hv
            subst hv
            exact hp2
      · rw [List.map_append, List.map_singleton]
        rw [List.nodup_append]
        refine ⟨hnodup, List.nodup_singleton _, ?_⟩
        intro x hx
        simp only [List.mem_singleton]
        intro heq
        subst heq
        obtain ⟨e, he, heq'⟩ := List.mem_map.mp hx
        exact absurd heq' ((formHasKey_eq_false_iff od _).mp hhk' e he)
    · exact ⟨hents, hnodup⟩

theorem formCollect_wf (names : List String) (b : List Char) :
    WFdict names (formCollect names b) := by
  have main : ∀ (pieces : List (List Char)) (acc : FormDict), WFdict names acc →
      (∀ p ∈ pieces, '&' ∉ p) → WFdict names (pieces.foldl (formStep names) acc) := by
    intro pieces
    induction pieces with
    | nil => exact fun acc h _ => h
    | cons p ps ih =>
      intro acc hacc hfree
      rw [List.foldl_cons]
      exact ih _ (formStep_wf names acc p hacc (hfree p (List.mem_cons_self _ _)))
        (fun q hq => hfree q (List.mem_cons_of_mem _ hq))
  exact main _ [] ⟨by simp, by simp⟩ (mem_splitOnByte_not_mem '&' b)

theorem mem_formPairs (od : FormDict) (kv : List Char × List Char) :
    kv ∈ formPairs od ↔ ∃ e ∈ od, kv.1 = e.1 ∧ kv.2 ∈ e.2 := by
  simp only [formPairs, List.mem_flatMap, List.mem_map]
  constructor
  · rintro ⟨e, he, v, hv, rfl⟩
    exact ⟨e, he, rfl, hv⟩
  · rintro ⟨e, he, h1, h2⟩
    refine ⟨e, he, kv.2, h2, ?_⟩
    obtain ⟨a, b⟩ := kv
    simp only at h1
    rw [h1]

theorem formPairs_ne_nil (od : FormDict) (hod : od ≠ []) (hv : ∀ e ∈ od, e.2 ≠ []) :
    formPairs od ≠ [] := by
  obtain ⟨e, rest, rfl⟩ := List.exists_cons_of_ne_nil hod
  obtain ⟨v0, vs, hv0⟩ := List.exists_cons_of_ne_nil (hv e (List.mem_cons_self _ _))
  simp [formPairs, hv0]

theorem formCollect_rebuild (names : List String) (od : FormDict)
    (hwf : WFdict names od) : formCollect names (formRebuild od) = od := by
  obtain ⟨hents, hnodup⟩ := hwf
  by_cases hod : od = []
  · subst hod
    rfl
  · have hfree : ∀ part ∈ (formPairs od).map (fun kv => kv.1 ++ '=' :: kv.2),
        '&' ∉ part := by
      intro part hpart
      obtain ⟨kv, hkv, rfl⟩ := List.mem_map.mp hpart
      obtain ⟨e, he, h1, h2⟩ := (mem_formPairs od kv).mp hkv
      obtain ⟨g1, g2, g3, g4, g5, g6⟩ := hents e he
      intro hmem
      rcases List.mem_append.mp hmem with hin | hin
      · exact (h1 ▸ g3) hin
      · rcases List.mem_cons.mp hin with heq | hin2
        · cases heq
        · exact g6 kv.2 h2 hin2
    have hne : (formPairs od).map (fun kv => kv.1 ++ '=' :: kv.2) ≠ [] := by
      simp only [ne_eq, List.map_eq_nil_iff]
      exact formPairs_ne_nil od hod (fun e he => (hents e he).2.2.2.2.1)
    unfold formCollect formRebuild
    rw [splitOnByte_joinByte '&' _ hne hfree]
    have := formFold_replay names od [] hents hnodup (by simp)
    simpa using this

theorem formBody_idem (names : List String) (b : List Char) :
    formBody names (formBody names b) = formBody names b := by
  show formRebuild (formCollect names (formRebuild (formCollect names b))) =
    formRebuild (formCollect names b)
  rw [formCollect_rebuild names (formCollect names b) (formCollect_wf names b)]

/-!
## The modelled JSON object reader/writer
-/

theorem mapM_option_mem {α β : Type} (f : α → Option β) (l : List α) (l' : List β)
    (h : l.mapM f = some l') : ∀ b ∈ l', ∃ a ∈ l, f a = some b := by
  induction l generalizing l' with
  | nil =>
    simp only [List.mapM_nil, pure, Option.some.injEq] at h
    subst h
    simp
  | cons a as ih =>
    rw [List.mapM_cons] at h
    cases hfa : f a with
    | none => rw [hfa] at h; simp at h
    | some x =>
      rw [hfa] at h
      cases hms : as.mapM f with
      | none => rw [hms] at h; simp at h
      | some xs =>
        rw [hms] at h
        simp only [Option.bind_eq_bind, Option.some_bind, pure, Option.some.injEq] at h
        subst h
        intro y hy
        rcases List.mem_cons.mp hy with rfl | hy2
        · exact ⟨a, List.mem_cons_self _ _, hfa⟩
        · obtain ⟨a', ha', hfa'⟩ := ih xs hms y hy2
          exact ⟨a', List.mem_cons_of_mem _ ha', hfa'⟩

theorem mapM_map_enc (obj : List (List Char × List Char))
    (hwf : ∀ kv ∈ obj, ':' ∉ kv.1) :
    (obj.map (fun kv => kv.1 ++ ':' :: kv.2)).mapM (splitOnceByte ':') = some obj := by
  induction obj with
  | nil => rfl
  | cons kv rest ih =>
    rw [List.map_cons, List.mapM_cons,
      splitOnceByte_append ':' kv.1 kv.2 (hwf kv (List.mem_cons_self _ _)),
      ih (fun x hx => hwf x (List.mem_cons_of_mem _ hx))]
    rfl

theorem jsonLoads_jsonDumps (obj : List (List Char × List Char))
    (hwf : ∀ kv ∈ obj, ',' ∉ kv.1 ∧ ':' ∉ kv.1 ∧ ',' ∉ kv.2) :
    jsonLoads (jsonDumps obj) = some obj := by
  cases obj with
  | nil => rfl
  | cons kv rest =>
    have hfree : ∀ part ∈ (kv :: rest).map (fun kv => kv.1 ++ ':' :: kv.2), ',' ∉ part := by
      intro part hpart
      obtain ⟨kv', hkv', rfl⟩ := List.mem_map.mp hpart
      obtain ⟨h1, h2, h3⟩ := hwf kv' hkv'
      intro hmem
      rcases List.mem_append.mp hmem with hin | hin
      · exact h1 hin
      · rcases List.mem_cons.mp hin with heq | hin2
        · cases heq
        · exact h3 hin2
    have hne : jsonDumps (kv :: rest) ≠ [] := by
      show joinByte ',' ((kv :: rest).map (fun kv => kv.1 ++ ':' :: kv.2)) ≠ []
      rw [List.map_cons]
      exact joinByte_cons_ne_nil ',' _ _ (by simp)
    unfold jsonLoads
    rw [if_neg hne]
    show (splitOnByte ','
        (joinByte ',' ((kv :: rest).map (fun kv => kv.1 ++ ':' :: kv.2)))).mapM
      (splitOnceByte ':') = some (kv :: rest)
    rw [splitOnByte_joinByte ',' _ (by simp) hfree]
    exact mapM_map_enc (kv :: rest) (fun x hx => (hwf x hx).2.1)

theorem jsonLoads_wf (b : List Char) (obj : List (List Char × List Char))
    (h : jsonLoads b = some obj) :
    ∀ kv ∈ obj, ',' ∉ kv.1 ∧ ':' ∉ kv.1 ∧ ',' ∉ kv.2 := by
  unfold jsonLoads at h
  by_cases hb : b = []
  · rw [if_pos hb] at h
    simp only [Option.some.injEq] at h
    subst h
    simp
  · rw [if_neg hb] at h
    intro kv hkv
    obtain ⟨part, hpart, hsp⟩ := mapM_option_mem _ _ _ h kv hkv
    obtain ⟨hpeq, hfree⟩ := splitOnceByte_eq ':' part kv.1 kv.2 hsp
    have hcomma := mem_splitOnByte_not_mem ',' b part hpart
    subst hpeq
    exact ⟨fun hm => hcomma (List.mem_append.mpr (Or.inl hm)), hfree,
      fun hm => hcomma (List.mem_append.mpr (Or.inr (List.mem_cons_of_mem _ hm)))⟩

/-!
## Branch equations and idempotence of `remove_post_data_parameters`
-/

theorem rpdp_not_post (request : Request) (names : List String)
    (h : ¬ request.method = "POST") :
    remove_post_data_parameters request names = some request := by
  unfold remove_post_data_parameters
  rw [if_neg h]

theorem rpdp_stream (request : Request) (names : List String)
    (hm : request.method = "POST") (hb : request.body = Body.stream) :
    remove_post_data_parameters request names = some request := by
  unfold remove_post_data_parameters
  rw [if_pos hm, hb]

theorem rpdp_json (request : Request) (names : List String) (b : List Char)
    (hm : request.method = "POST") (hb : request.body = Body.bytes b)
    (hct : request.headers.lookup "Content-Type" = some "application/json") :
    remove_post_data_parameters request names =
      match jsonLoads b with
      | none => none
      | some obj =>
        some { request with
                body := Body.bytes (jsonDumps (obj.filter
                  (fun kv => !(names.contains (String.mk kv.1))))) } := by
  unfold remove_post_data_parameters
  rw [if_pos hm, hb]
  dsimp only
  rw [if_pos hct]

theorem rpdp_form (request : Request) (names : List String) (b : List Char)
    (hm : request.method = "POST") (hb : request.body = Body.bytes b)
    (hct : ¬ request.headers.lookup "Content-Type" = some "application/json") :
    remove_post_data_parameters request names =
      some { request with body := Body.bytes (formBody names b) } := by
  unfold remove_post_data_parameters
  rw [if_pos hm, hb]
  dsimp only
  rw [if_neg hct]

theorem filter_self_filter {α : Type} (p : α → Bool) (l : List α) :
    (l.filter p).filter p = l.filter p := by
  apply List.filter_eq_self.mpr
  intro a ha
  exact (List.mem_filter.mp ha).2

theorem remove_headers_eq_self (request : Request) (names : List String)
    (hke : (request.headers.filter
      (fun kv => ((names.map asciiLower).contains (asciiLower kv.1)))).isEmpty = true) :
    remove_headers request names = request := by
  simp only [remove_headers]
  rw [if_pos hke]

/-- Claim C7: each of the three filters (`remove_headers`,
`remove_query_parameters`, `remove_post_data_parameters`) is
idempotent: applying it twice with the same names yields the same
request as applying it once (the post-data filter phrased on its
non-raising runs, as the source raises on non-object JSON bodies). -/
theorem C7_filters_idempotent (request : Request) (names : List String) :
    remove_headers (remove_headers request names) names = remove_headers request names ∧
    remove_query_parameters (remove_query_parameters request names) names =
      remove_query_parameters request names ∧
    (∀ request1, remove_post_data_parameters request names = some request1 →
      remove_post_data_parameters request1 names = some request1) := by
  refine ⟨?_, ?_, ?_⟩
  · apply remove_headers_eq_self
    rw [remove_headers_headers]
    rw [List.isEmpty_iff, List.filter_eq_nil_iff]
    intro kv hkv
    have h2 := (List.mem_filter.mp hkv).2
    simpa using h2
  · by_cases hlen : (request.uri.query.filter
        (fun kv => !(names.contains kv.1))).length ≠ request.uri.query.length
    · have h1 : remove_query_parameters request names =
          { request with uri := { request.uri with
            query := request.uri.query.filter (fun kv => !(names.contains kv.1)) } } := by
        simp only [remove_query_parameters, Request.query]
        rw [if_pos hlen]
      rw [h1]
      simp only [remove_query_parameters, Request.query]
      rw [filter_self_filter]
      simp
    · have h1 : remove_query_parameters request names = request := by
        simp only [remove_query_parameters, Request.query]
        rw [if_neg hlen]
      rw [h1, h1]
  · intro request1 h1
    by_cases hm : request.method = "POST"
    · cases hbody : request.body with
      | stream =>
        rw [rpdp_stream request names hm hbody] at h1
        injection h1 with h1
        subst h1
        exact rpdp_stream request names hm hbody
      | bytes b =>
        by_cases hct : request.headers.lookup "Content-Type" = some "application/json"
        · rw [rpdp_json request names b hm hbody hct] at h1
          cases hjs : jsonLoads b with
          | none =>
            rw [hjs] at h1
            cases h1
          | some obj =>
            rw [hjs] at h1
            simp only [Option.some.injEq] at h1
            subst h1
            have hwf1 := jsonLoads_wf b obj hjs
            have hwf2 : ∀ kv ∈ obj.filter (fun kv => !(names.contains (String.mk kv.1))),
                ',' ∉ kv.1 ∧ ':' ∉ kv.1 ∧ ',' ∉ kv.2 :=
              fun kv hkv => hwf1 kv (List.mem_of_mem_filter hkv)
            have hround := jsonLoads_jsonDumps _ hwf2
            rw [rpdp_json
              { request with body := Body.bytes (jsonDumps (obj.filter
                  (fun kv => !(names.contains (String.mk kv.1))))) }
              names
              (jsonDumps (obj.filter (fun kv => !(names.contains (String.mk kv.1)))))
              hm rfl hct]
            simp only [hround]
            rw [filter_self_filter]
        · rw [rpdp_form request names b hm hbody hct] at h1
          simp only [Option.some.injEq] at h1
          subst h1
          rw [rpdp_form { request with body := Body.bytes (formBody names b) }
            names (formBody names b) hm rfl hct, formBody_idem]
    · rw [rpdp_not_post request names hm] at h1
      injection h1 with h1
      subst h1
      exact rpdp_not_post request names hm

/-- Witness for C7: removing post-data parameter "a" from the concrete
POST request `wReq7` yields `wReq7out`, and a second application is a
fixpoint. -/
theorem C7_filters_idempotent_witness :
    remove_post_data_parameters wReq7 ["a"] = some wReq7out ∧
    remove_post_data_parameters wReq7out ["a"] = some wReq7out := by
  have h1 : remove_post_data_parameters wReq7 ["a"] = some wReq7out := by decide
  exact ⟨h1, (C7_filters_idempotent wReq7 ["a"]).2.2 wReq7out h1⟩

/-- Claim C10: on a POST request with a non-stream, non-JSON
(form-encoded) body, `remove_post_data_parameters` rewrites the body
through the form loop, and every parameter whose key is empty is
dropped even when the removal list is empty: every key of the
collected dict is non-empty. -/
theorem C10_empty_key_dropped (request : Request) (b : List Char)
    (hm : request.method = "POST") (hb : request.body = Body.bytes b)
    (hct : ¬ request.headers.lookup "Content-Type" = some "application/json") :
    remove_post_data_parameters request [] =
      some { request with body := Body.bytes (formBody [] b) } ∧
    ∀ e ∈ formCollect [] b, e.1 ≠ [] :=
  ⟨rpdp_form request [] b hm hb hct,
   fun e he => ((formCollect_wf [] b).1 e he).1⟩

/-- Witness for C10: the concrete POST request `exReq10` with body
`=x&a=1` and no names to remove gets body `a=1`: the empty-keyed
parameter is dropped. -/
theorem C10_empty_key_dropped_witness :
    exReq10.method = "POST" ∧
    ¬ exReq10.headers.lookup "Content-Type" = some "application/json" ∧
    remove_post_data_parameters exReq10 [] =
      some { exReq10 with body := Body.bytes ("a=1".toList) } := by
  refine ⟨rfl, by decide, ?_⟩
  have h := (C10_empty_key_dropped exReq10 ("=x&a=1".toList) rfl rfl (by decide)).1
  rw [h]
  decide

end VCR
